import Mathlib

/-
Verification development for the lindera morphological analyzer.
The segmentation engine (dictionary lookup, lattice construction, Viterbi
search, unknown-word fallback), trainer and exporter are modelled from the
design specification, since only the Python-facing tests and examples of the
repository are visible; the binding layer itself is out of scope.
-/

namespace Lindera

/-- Modelled from the spec: WordEntry (§3) — surface, left/right connection
classes, signed cost (lower = more preferred), ordered feature list. -/
structure WordEntry where
  surface : List Char
  leftId : Nat
  rightId : Nat
  wcost : Int
  features : List String
deriving DecidableEq, Repr

/-- Modelled from the spec: CharCategory behavioral flags (§3) — invoke
unknown-word logic even if dictionary entries exist, group contiguous
same-category characters, maximum run length (0 = unlimited). -/
structure CategoryDef where
  invoke : Bool
  group : Bool
  maxLen : Nat
deriving DecidableEq, Repr

/-- Modelled from the spec: Mode (§3, §4.3) — normal never decomposes matched
dictionary words; search/decompose bias against long spans beyond a
configured length threshold by an additional penalty. -/
inductive Mode where
  | normal
  | search (lenThreshold : Nat) (penalty : Int)
  | decompose (lenThreshold : Nat) (penalty : Int)
deriving DecidableEq, Repr

/-- Which store contributed a lattice candidate: the user dictionary overlay,
the system dictionary, or the unknown-word model (§3, §4.4). -/
inductive Src where
  | user
  | system
  | unknown
deriving DecidableEq, Repr

/-- Modelled from the spec: the read-only state owned by a Tokenizer (§2,
§4.5) — system dictionary, optional user dictionary overlay (empty list when
absent), connection cost matrix (fails closed: `none` forbids the adjacency,
§3), character classifier (category id, 0 = DEFAULT for unmapped code
points), per-category flags, per-category unknown word entries, and mode. -/
structure Config where
  system : List WordEntry
  user : List WordEntry
  matrix : Nat → Nat → Option Int
  classifyChar : Char → Nat
  categories : List CategoryDef
  unkEntries : List WordEntry
  mode : Mode

/-- A candidate lattice node: contributing store, word id (index into the
contributing dictionary, or category id for unknown words), span length in
code points, connection classes, entry cost, feature payload (§3). -/
structure Candidate where
  src : Src
  wordId : Nat
  len : Nat
  leftId : Nat
  rightId : Nat
  wcost : Int
  features : List String
deriving DecidableEq, Repr

/-- Candidate built from a dictionary entry at a given insertion index. -/
def mkCand (s : Src) (i : Nat) (e : WordEntry) : Candidate :=
  { src := s, wordId := i, len := e.surface.length, leftId := e.leftId,
    rightId := e.rightId, wcost := e.wcost, features := e.features }

/-- Entries paired with their insertion index, starting from `k`. -/
def withIdx : Nat → List WordEntry → List (Nat × WordEntry)
  | _, [] => []
  | k, e :: es => (k, e) :: withIdx (k + 1) es

/-- Modelled from the spec: dictionary lookup (§4.1) — every entry whose
surface is a (non-empty) prefix of the remaining text, with insertion index
as word id. -/
def dictCandidates (s : Src) (entries : List WordEntry) (rest : List Char) : List Candidate :=
  (withIdx 0 entries).filterMap (fun p =>
    if p.2.surface.isPrefixOf rest && !p.2.surface.isEmpty then some (mkCand s p.1 p.2)
    else none)

/-- Length of the maximal run of characters of category `cat` at the head. -/
def runLen (cfg : Config) (cat : Nat) : List Char → Nat
  | [] => 0
  | c :: cs => if cfg.classifyChar c == cat then runLen cfg cat cs + 1 else 0

/-- Span of the unknown-word node at the head character (§4.4): the maximal
same-category run when the category groups (bounded by its maximum length
when non-zero), a single code point otherwise. -/
def unkLen (cfg : Config) (ch : Char) (rs : List Char) : Nat :=
  if (cfg.categories.getD (cfg.classifyChar ch) ⟨false, false, 0⟩).group then
    (if (cfg.categories.getD (cfg.classifyChar ch) ⟨false, false, 0⟩).maxLen = 0 then
      runLen cfg (cfg.classifyChar ch) (ch :: rs)
    else
      min (cfg.categories.getD (cfg.classifyChar ch) ⟨false, false, 0⟩).maxLen
        (runLen cfg (cfg.classifyChar ch) (ch :: rs)))
  else 1

/-- Modelled from the spec: unknown-word fallback node (§4.4) — synthetic
entry from the UnknownWordModel for the head character's category, spanning a
single code point or the category's maximal grouped run (bounded by the
category's maximum length when non-zero). -/
def unknownCandidate (cfg : Config) (ch : Char) (rs : List Char) : Candidate :=
  { src := Src.unknown, wordId := cfg.classifyChar ch, len := unkLen cfg ch rs,
    leftId := (cfg.unkEntries.getD (cfg.classifyChar ch) ⟨[], 0, 0, 0, []⟩).leftId,
    rightId := (cfg.unkEntries.getD (cfg.classifyChar ch) ⟨[], 0, 0, 0, []⟩).rightId,
    wcost := (cfg.unkEntries.getD (cfg.classifyChar ch) ⟨[], 0, 0, 0, []⟩).wcost,
    features := (cfg.unkEntries.getD (cfg.classifyChar ch) ⟨[], 0, 0, 0, []⟩).features }

/-- Candidates contributed by both dictionaries, user overlay first (user
entries are logically preferred at equal cost, §4.1). -/
def dictAll (cfg : Config) (rest : List Char) : List Candidate :=
  dictCandidates Src.user cfg.user rest ++ dictCandidates Src.system cfg.system rest

/-- Modelled from the spec: candidate set at a position (§4.2) — user and
system dictionary matches, plus the unknown-word node when the category's
invoke flag is set or no dictionary candidate exists. -/
def candidatesAt (cfg : Config) (ch : Char) (rs : List Char) : List Candidate :=
  if (cfg.categories.getD (cfg.classifyChar ch) ⟨false, false, 0⟩).invoke
      || (dictAll cfg (ch :: rs)).isEmpty then
    dictAll cfg (ch :: rs) ++ [unknownCandidate cfg ch rs]
  else dictAll cfg (ch :: rs)

/-- Modelled from the spec: mode-dependent entry cost (§4.3) — search and
decompose modes penalize spans exceeding the configured length threshold;
normal mode uses the entry cost unchanged. -/
def adjustedCost (m : Mode) (c : Candidate) : Int :=
  match m with
  | Mode.normal => c.wcost
  | Mode.search t p => if t < c.len then c.wcost + p else c.wcost
  | Mode.decompose t p => if t < c.len then c.wcost + p else c.wcost

/-- Keep the strictly cheaper of a new element and the best seen so far; on
ties the new (earlier) element wins. -/
def pickBetter {α : Type} (x : Int × α) : Option (Int × α) → Option (Int × α)
  | none => some x
  | some y => if y.1 < x.1 then some y else some x

/-- First element of minimal cost (earlier elements win ties), realizing the
deterministic tie-break ordering of §4.3. -/
def pickMin {α : Type} : List (Int × α) → Option (Int × α)
  | [] => none
  | x :: xs => pickBetter x (pickMin xs)

/-- Modelled from the spec: Viterbi minimum-cost search (§4.3), presented as
recursion on the remaining text — the best path from the current position to
end-of-text given the right connection class of the previous node (begin/end
of text use class 0). Each step adds connection cost plus mode-adjusted entry
cost; a `none` matrix lookup fails closed and forbids the adjacency. The fuel
argument bounds recursion depth; `tokenize` supplies the text length, which
suffices since every candidate spans at least one code point. -/
def bestSeg (cfg : Config) : Nat → Nat → List Char → Option (Int × List Candidate)
  | _, prevRight, [] => (cfg.matrix prevRight 0).map (fun cc => (cc, []))
  | 0, _, _ :: _ => none
  | fuel + 1, prevRight, ch :: rs =>
    pickMin ((candidatesAt cfg ch rs).filterMap (fun cand =>
      match cfg.matrix prevRight cand.leftId,
            bestSeg cfg fuel cand.rightId ((ch :: rs).drop cand.len) with
      | some cc, some pr2 => some (cc + adjustedCost cfg.mode cand + pr2.1, cand :: pr2.2)
      | _, _ => none))

/-- One step of the Viterbi search: evaluate a single candidate at the
current position (connection cost, adjusted entry cost, best completion). -/
def evalCand (cfg : Config) (fuel prevRight : Nat) (rest : List Char) (cand : Candidate) :
    Option (Int × List Candidate) :=
  match cfg.matrix prevRight cand.leftId,
        bestSeg cfg fuel cand.rightId (rest.drop cand.len) with
  | some cc, some pr2 => some (cc + adjustedCost cfg.mode cand + pr2.1, cand :: pr2.2)
  | _, _ => none

/-- Modelled from the spec: Token (§3, §6) — surface slice, byte offsets,
sequence position, word id, contributing store, feature details. -/
structure Token where
  surface : List Char
  byte_start : Nat
  byte_end : Nat
  position : Nat
  word_id : Nat
  src : Src
  details : List String
deriving DecidableEq, Repr

/-- UTF-8 byte length of a character sequence. -/
def byteLen (cs : List Char) : Nat := (cs.map Char.utf8Size).sum

/-- Backtrace result mapped to tokens (§4.5): each candidate consumes its span
from the remaining text, accumulating byte offsets and sequence positions. -/
def buildTokens : List Char → Nat → Nat → List Candidate → List Token
  | _, _, _, [] => []
  | rest, bstart, pos, c :: p =>
    { surface := rest.take c.len, byte_start := bstart,
      byte_end := bstart + byteLen (rest.take c.len), position := pos,
      word_id := c.wordId, src := c.src, details := c.features } ::
      buildTokens (rest.drop c.len) (bstart + byteLen (rest.take c.len)) (pos + 1) p

/-- Modelled from the spec: Tokenizer.tokenize (§4.5) — run the Viterbi search
over the whole text from begin-of-text (class 0) and map the winning path to
tokens; `none` models SegmentationFailure (§7). Input is a list of Unicode
scalar values, so it is valid UTF-8 by construction. -/
def tokenize (cfg : Config) (text : List Char) : Option (List Token) :=
  (bestSeg cfg text.length 0 text).map (fun r => buildTokens text 0 0 r.2)

/-- Byte ranges chained from `b`: each token starts where the previous ended
and its end is its start plus its surface's UTF-8 length. -/
def contiguousFrom : Nat → List Token → Bool
  | _, [] => true
  | b, t :: ts =>
    (t.byte_start == b) && (t.byte_end == t.byte_start + byteLen t.surface) &&
      contiguousFrom t.byte_end ts

/-- Byte offset after the last token (`b` when there is none). -/
def lastEnd : Nat → List Token → Nat
  | b, [] => b
  | _, t :: ts => lastEnd t.byte_end ts

/-- Concatenation of all token surfaces. -/
def surfConcat (ts : List Token) : List Char := (ts.map Token.surface).flatten

/-- The token ranges are contiguous, non-overlapping and exactly cover the
text: chained from byte 0, ending at the text's UTF-8 byte length, with the
surfaces concatenating back to the text. -/
def covers (text : List Char) (ts : List Token) : Bool :=
  contiguousFrom 0 ts && (lastEnd 0 ts == byteLen text) && (surfConcat ts == text)

/-- Total span length of a candidate path, in code points. -/
def sumLens (p : List Candidate) : Nat := (p.map Candidate.len).sum

/-- Modelled from the spec: the Token.get_detail accessor of the binding
contract (§6) — the detail string at the given index, `none` when the index
is out of bounds. -/
def Token.get_detail (t : Token) (i : Nat) : Option String := t.details.get? i

/-- Hiragana range check used by the fixture configuration. -/
def hira (c : Char) : Bool := 0x3041 ≤ c.toNat && c.toNat ≤ 0x3096

/-- Modelled from the spec: the fragment of the embedded IPADIC dictionary
relevant to the known fixture (§8) — the words すもも, も, もも, の, うち with
connection class 1 for nouns and 2 for particles and lower costs for the
particles, as the reference dictionary prefers the fixture segmentation. -/
def ipadicEntries : List WordEntry :=
  [ ⟨['す','も','も'], 1, 1, 7000, ["名詞", "一般"]⟩
  , ⟨['も'], 2, 2, 5000, ["助詞", "係助詞"]⟩
  , ⟨['も','も'], 1, 1, 7000, ["名詞", "一般"]⟩
  , ⟨['の'], 2, 2, 5000, ["助詞", "連体化"]⟩
  , ⟨['う','ち'], 1, 1, 7000, ["名詞", "非自立"]⟩ ]

/-- Modelled from the spec: a Tokenizer over the embedded IPADIC fragment in
normal mode — connection matrix penalizing adjacent entries of the same
class (two nouns or two particles in a row), hiragana classified as
category 1, grouped unknown-word fallback. -/
def ipadicConfig : Config :=
  { system := ipadicEntries
  , user := []
  , matrix := fun l r => some (if l = r ∧ l ≠ 0 then 10000 else 0)
  , classifyChar := fun c => if hira c then 1 else 0
  , categories := [⟨false, true, 0⟩, ⟨false, true, 0⟩]
  , unkEntries := [⟨[], 3, 3, 20000, ["名詞", "一般"]⟩, ⟨[], 3, 3, 20000, ["名詞", "一般"]⟩]
  , mode := Mode.normal }

/-- The fixture text すもももももももものうち as a list of code points. -/
def fixtureText : List Char :=
  ['す', 'も', 'も', 'も', 'も', 'も', 'も', 'も', 'も', 'の', 'う', 'ち']

/-- Minimal configuration with empty dictionaries, a total zero-cost
connection matrix and grouped DEFAULT unknown words, used as a concrete
instance for witnesses. -/
def miniConfig : Config :=
  { system := []
  , user := []
  , matrix := fun _ _ => some 0
  , classifyChar := fun _ => 0
  , categories := [⟨false, true, 0⟩]
  , unkEntries := [⟨[], 0, 0, 0, ["UNK"]⟩]
  , mode := Mode.normal }

/-- Configuration exhibiting connection-cost interaction between the system
and user overlay: both dictionaries hold the surface あ, the user entry with
the lower word cost but connection classes that the matrix makes prohibitively
expensive to reach. -/
def overlayConfig : Config :=
  { system := [⟨['あ'], 1, 1, 10, ["SYS"]⟩]
  , user := [⟨['あ'], 2, 2, 0, ["USR"]⟩]
  , matrix := fun l r =>
      some (if (l = 0 ∧ r = 1) ∨ (l = 1 ∧ r = 0) ∨ (l = 0 ∧ r = 0) then 0 else 100000)
  , classifyChar := fun _ => 0
  , categories := [⟨false, true, 0⟩]
  , unkEntries := [⟨[], 3, 3, 20000, ["UNK"]⟩]
  , mode := Mode.normal }

/-- Configuration where the user overlay holds the same surface as the system
dictionary with identical connection classes and a lower cost, under a total
zero connection matrix. -/
def overlayGoodConfig : Config :=
  { system := [⟨['あ'], 1, 1, 10, ["SYS"]⟩]
  , user := [⟨['あ'], 1, 1, 0, ["USR"]⟩]
  , matrix := fun _ _ => some 0
  , classifyChar := fun _ => 0
  , categories := [⟨false, true, 0⟩]
  , unkEntries := [⟨[], 3, 3, 20000, ["UNK"]⟩]
  , mode := Mode.normal }

/-- Modelled from the spec: TrainedModel as exported (§3, §4.7) — derived
lexicon entries, connection matrix triples, unknown word definitions keyed by
category name, and character definitions; weights are already folded into the
derived costs. -/
structure TrainedModel where
  lexicon : List WordEntry
  connMatrix : List (Nat × Nat × Int)
  unkDefs : List (String × WordEntry)
  charDefs : List (String × CategoryDef)
deriving DecidableEq, Repr

/-- The dictionary file set produced by the exporter (§6): lexicon CSV,
connection matrix, unknown-word definitions, character definitions. -/
structure ExportedFiles where
  lexCsv : String
  matrixDef : String
  unkDef : String
  charDef : String
deriving DecidableEq, Repr

/-- One lexicon CSV line: surface, connection classes, cost, features (§6). -/
def csvLine (e : WordEntry) : String :=
  String.intercalate ","
    ([e.surface.asString, toString e.leftId, toString e.rightId, toString e.wcost] ++ e.features)

/-- One unknown-word definition line, keyed by category name with the same
column shape as the lexicon (§6). -/
def unkLine (p : String × WordEntry) : String :=
  String.intercalate ","
    ([p.1, toString p.2.leftId, toString p.2.rightId, toString p.2.wcost] ++ p.2.features)

/-- One character definition line: name, invoke, group, length (§6). -/
def charLine (p : String × CategoryDef) : String :=
  p.1 ++ " " ++ (if p.2.invoke then "1" else "0") ++ " " ++
    (if p.2.group then "1" else "0") ++ " " ++ toString p.2.maxLen

/-- Modelled from the spec: the Exporter (§4.7) — a pure function of the
trained model emitting the dictionary file set; it takes no clock or
environment input, so no timestamps appear in the output. -/
def exportModel (m : TrainedModel) : ExportedFiles :=
  { lexCsv := String.intercalate "\n" (m.lexicon.map csvLine)
  , matrixDef := String.intercalate "\n"
      (m.connMatrix.map (fun t => toString t.1 ++ " " ++ toString t.2.1 ++ " " ++ toString t.2.2))
  , unkDef := String.intercalate "\n" (m.unkDefs.map unkLine)
  , charDef := String.intercalate "\n" (m.charDefs.map charLine) }

/-- Modelled from the spec: one corpus sentence (§3) — ordered surface and
feature-vector pairs. -/
abbrev TrainingInstance := List (List Char × List String)

/-- Modelled from the spec: one pass over the training corpus with
max_threads = 1 (§4.6) — instances processed sequentially in corpus order;
the per-instance update (feature extraction, Viterbi prediction, margin
update with L1 shrinkage) is abstracted as `update`, its code being absent
from the repository snapshot. -/
def trainPass {α : Type} (update : α → TrainingInstance → α)
    (corpus : List TrainingInstance) (w : α) : α :=
  corpus.foldl update w

/-- Modelled from the spec: the trainer iteration loop (§4.6) — run passes
over the corpus until the convergence predicate holds between consecutive
weight vectors or the pass budget is exhausted, returning the final weights
together with the number of passes performed; non-convergence is not an
error, the weights at the budget are returned. -/
def trainLoop {α : Type} (update : α → TrainingInstance → α)
    (convergedB : α → α → Bool) : Nat → List TrainingInstance → α → α × Nat
  | 0, _, w => (w, 0)
  | n + 1, corpus, w =>
    if convergedB w (trainPass update corpus w) then (trainPass update corpus w, 1)
    else
      ((trainLoop update convergedB n corpus (trainPass update corpus w)).1,
        (trainLoop update convergedB n corpus (trainPass update corpus w)).2 + 1)

/-- Modelled from the spec: training followed by export (§4.6, §4.7) — run the
iteration loop from the seed weights and export the derived model. -/
def trainAndExport {α : Type} (update : α → TrainingInstance → α)
    (convergedB : α → α → Bool) (derive : α → TrainedModel) (maxIter : Nat)
    (corpus : List TrainingInstance) (w0 : α) : ExportedFiles :=
  exportModel (derive (trainLoop update convergedB maxIter corpus w0).1)

theorem sumLens_cons (c : Candidate) (p : List Candidate) :
    sumLens (c :: p) = c.len + sumLens p := by
  simp [sumLens]

theorem pickMin_mem {α : Type} :
    ∀ (l : List (Int × α)) (x : Int × α), pickMin l = some x → x ∈ l := by
  intro l
  induction l with
  | nil => intro x h; exact Option.noConfusion h
  | cons a t ih =>
    intro x h
    simp only [pickMin] at h
    cases ht : pickMin t with
    | none =>
      rw [ht] at h
      simp only [pickBetter] at h
      injection h with h2
      subst h2
      exact List.mem_cons_self a t
    | some y =>
      rw [ht] at h
      simp only [pickBetter] at h
      by_cases hlt : y.1 < a.1
      · rw [if_pos hlt] at h
        injection h with h2
        subst h2
        exact List.mem_cons_of_mem a (ih y ht)
      · rw [if_neg hlt] at h
        injection h with h2
        subst h2
        exact List.mem_cons_self a t

theorem pickMin_first {α : Type} :
    ∀ (l : List (Int × α)) (x : Int × α), pickMin l = some x →
      ∃ l₁ l₂, l = l₁ ++ x :: l₂ ∧ ∀ z ∈ l₁, x.1 < z.1 := by
  intro l
  induction l with
  | nil => intro x h; exact Option.noConfusion h
  | cons a t ih =>
    intro x h
    simp only [pickMin] at h
    cases ht : pickMin t with
    | none =>
      rw [ht] at h
      simp only [pickBetter] at h
      injection h with h2
      subst h2
      exact ⟨[], t, rfl, by simp⟩
    | some y =>
      rw [ht] at h
      simp only [pickBetter] at h
      by_cases hlt : y.1 < a.1
      · rw [if_pos hlt] at h
        injection h with h2
        subst h2
        obtain ⟨l₁, l₂, heq, hall⟩ := ih y ht
        refine ⟨a :: l₁, l₂, by rw [heq]; rfl, ?_⟩
        intro z hz
        rcases List.mem_cons.mp hz with h3 | h3
        · subst h3; exact hlt
        · exact hall z h3
      · rw [if_neg hlt] at h
        injection h with h2
        subst h2
        exact ⟨[], t, rfl, by simp⟩

theorem pickMin_cons_ne_none {α : Type} (a : Int × α) (t : List (Int × α)) :
    ∃ x, pickMin (a :: t) = some x := by
  simp only [pickMin]
  cases pickMin t with
  | none => exact ⟨a, rfl⟩
  | some y =>
    simp only [pickBetter]
    by_cases h : y.1 < a.1
    · exact ⟨y, by rw [if_pos h]⟩
    · exact ⟨a, by rw [if_neg h]⟩

theorem bestSeg_nil (cfg : Config) (fuel pr : Nat) :
    bestSeg cfg fuel pr [] = (cfg.matrix pr 0).map (fun cc => (cc, [])) := by
  cases fuel <;> rfl

theorem bestSeg_cons (cfg : Config) (fuel pr : Nat) (ch : Char) (rs : List Char) :
    bestSeg cfg (fuel + 1) pr (ch :: rs) =
      pickMin ((candidatesAt cfg ch rs).filterMap (evalCand cfg fuel pr (ch :: rs))) := rfl

theorem bestSeg_nil_inv (cfg : Config) (fuel pr : Nat) (r : Int × List Candidate)
    (h : bestSeg cfg fuel pr [] = some r) : r.2 = [] := by
  rw [bestSeg_nil] at h
  cases hm : cfg.matrix pr 0 with
  | none => rw [hm] at h; exact Option.noConfusion h
  | some cc =>
    rw [hm] at h
    injection h with h2
    rw [← h2]

theorem evalCand_eq_some (cfg : Config) (fuel pr : Nat) (rest : List Char) (cand : Candidate)
    (r : Int × List Candidate) (h : evalCand cfg fuel pr rest cand = some r) :
    ∃ cc pr2, cfg.matrix pr cand.leftId = some cc ∧
      bestSeg cfg fuel cand.rightId (rest.drop cand.len) = some pr2 ∧
      r = (cc + adjustedCost cfg.mode cand + pr2.1, cand :: pr2.2) := by
  unfold evalCand at h
  cases hm : cfg.matrix pr cand.leftId with
  | none =>
    rw [hm] at h
    exact Option.noConfusion h
  | some cc =>
    rw [hm] at h
    cases hb : bestSeg cfg fuel cand.rightId (rest.drop cand.len) with
    | none => rw [hb] at h; exact Option.noConfusion h
    | some pr2 =>
      rw [hb] at h
      injection h with h2
      exact ⟨cc, pr2, rfl, rfl, h2.symm⟩

theorem bestSeg_sumLens (cfg : Config) :
    ∀ (fuel pr : Nat) (rest : List Char) (r : Int × List Candidate),
      bestSeg cfg fuel pr rest = some r → rest.length ≤ sumLens r.2 := by
  intro fuel
  induction fuel with
  | zero =>
    intro pr rest r h
    cases rest with
    | nil =>
      simp [bestSeg_nil_inv cfg 0 pr r h, sumLens]
    | cons ch rs => exact Option.noConfusion h
  | succ fuel ih =>
    intro pr rest r h
    cases rest with
    | nil =>
      simp [bestSeg_nil_inv cfg (fuel + 1) pr r h, sumLens]
    | cons ch rs =>
      rw [bestSeg_cons] at h
      obtain ⟨cand, hcm, hc⟩ := List.mem_filterMap.mp (pickMin_mem _ r h)
      obtain ⟨cc, pr2, hm, hb, hr⟩ := evalCand_eq_some cfg fuel pr (ch :: rs) cand r hc
      have h2 := ih cand.rightId ((ch :: rs).drop cand.len) pr2 hb
      rw [List.length_drop] at h2
      have h3 : sumLens r.2 = cand.len + sumLens pr2.2 := by
        rw [hr, sumLens_cons]
      rw [h3]
      omega

theorem byteLen_append (a b : List Char) : byteLen (a ++ b) = byteLen a + byteLen b := by
  simp [byteLen]

theorem byteLen_take_drop (n : Nat) (l : List Char) :
    byteLen (l.take n) + byteLen (l.drop n) = byteLen l := by
  have h := byteLen_append (l.take n) (l.drop n)
  rw [List.take_append_drop] at h
  omega

theorem surfConcat_cons (t : Token) (ts : List Token) :
    surfConcat (t :: ts) = t.surface ++ surfConcat ts := by
  simp [surfConcat]

theorem buildTokens_contiguous :
    ∀ (p : List Candidate) (rest : List Char) (b pos : Nat),
      contiguousFrom b (buildTokens rest b pos p) = true := by
  intro p
  induction p with
  | nil => intro rest b pos; rfl
  | cons c p ih =>
    intro rest b pos
    simp only [buildTokens, contiguousFrom]
    rw [ih]
    simp

theorem buildTokens_lastEnd :
    ∀ (p : List Candidate) (rest : List Char) (b pos : Nat), rest.length ≤ sumLens p →
      lastEnd b (buildTokens rest b pos p) = b + byteLen rest := by
  intro p
  induction p with
  | nil =>
    intro rest b pos h
    have h0 : rest = [] := by
      have : rest.length = 0 := by
        have h1 : sumLens ([] : List Candidate) = 0 := by simp [sumLens]
        omega
      exact List.length_eq_zero.mp this
    subst h0
    simp [buildTokens, lastEnd, byteLen]
  | cons c p ih =>
    intro rest b pos h
    have h2 : rest.length ≤ c.len + sumLens p := by rw [← sumLens_cons]; exact h
    have hlen : (rest.drop c.len).length ≤ sumLens p := by
      rw [List.length_drop]; omega
    simp only [buildTokens, lastEnd]
    rw [ih (rest.drop c.len) (b + byteLen (rest.take c.len)) (pos + 1) hlen]
    have h3 := byteLen_take_drop c.len rest
    omega

theorem buildTokens_surf :
    ∀ (p : List Candidate) (rest : List Char) (b pos : Nat), rest.length ≤ sumLens p →
      surfConcat (buildTokens rest b pos p) = rest := by
  intro p
  induction p with
  | nil =>
    intro rest b pos h
    have h0 : rest = [] := by
      have : rest.length = 0 := by
        have h1 : sumLens ([] : List Candidate) = 0 := by simp [sumLens]
        omega
      exact List.length_eq_zero.mp this
    subst h0
    rfl
  | cons c p ih =>
    intro rest b pos h
    have h2 : rest.length ≤ c.len + sumLens p := by rw [← sumLens_cons]; exact h
    have hlen : (rest.drop c.len).length ≤ sumLens p := by
      rw [List.length_drop]; omega
    simp only [buildTokens]
    rw [surfConcat_cons]
    rw [ih (rest.drop c.len) (b + byteLen (rest.take c.len)) (pos + 1) hlen]
    exact List.take_append_drop c.len rest

/-- C1: for every valid UTF-8 input text, the tokens returned by tokenize have
byte ranges that are contiguous (each token starts where the previous ended,
the first at byte 0, the last ending at the input's byte length),
non-overlapping, and together exactly cover the input (the surfaces
concatenate back to the input). -/
theorem tokenize_coverage (cfg : Config) (text : List Char) (toks : List Token)
    (h : tokenize cfg text = some toks) : covers text toks = true := by
  unfold tokenize at h
  cases hb : bestSeg cfg text.length 0 text with
  | none => rw [hb] at h; exact Option.noConfusion h
  | some r =>
    rw [hb] at h
    injection h with h2
    subst h2
    have hs := bestSeg_sumLens cfg text.length 0 text r hb
    unfold covers
    rw [buildTokens_contiguous, buildTokens_lastEnd r.2 text 0 0 hs,
      buildTokens_surf r.2 text 0 0 hs]
    simp

/-- Witness for C1: a concrete successful tokenization whose result covers the
input. -/
theorem tokenize_coverage_witness :
    covers ['a', 'b'] [⟨['a', 'b'], 0, 2, 0, 0, Src.unknown, ["UNK"]⟩] = true :=
  tokenize_coverage miniConfig ['a', 'b'] _ (by decide)

/-- C2: tokenizing すもももももももものうち in normal mode over the embedded
IPADIC model yields exactly the 7 tokens すもも, も, もも, も, もも, の, うち in
order, with contiguous byte offsets summing to the full byte length of the
input (the `covers` component). -/
theorem tokenize_ipadic_fixture :
    (tokenize ipadicConfig fixtureText).map
        (fun ts => (ts.map (fun t => t.surface), ts.length, covers fixtureText ts)) =
      some ([['す','も','も'], ['も'], ['も','も'], ['も'], ['も','も'], ['の'], ['う','ち']],
        7, true) := by
  decide

/-- C3: tokenize is deterministic — two calls on the identical (text,
dictionary configuration, mode) return identical token sequences; in this
purely functional model the tokenizer has no hidden state, so the result is a
function of its arguments alone. -/
theorem tokenize_deterministic (cfg₁ cfg₂ : Config) (t₁ t₂ : List Char)
    (hc : cfg₁ = cfg₂) (ht : t₁ = t₂) : tokenize cfg₁ t₁ = tokenize cfg₂ t₂ := by
  subst hc
  subst ht
  rfl

/-- Witness for C3: two calls on the fixture input agree. -/
theorem tokenize_deterministic_witness :
    tokenize ipadicConfig fixtureText = tokenize ipadicConfig fixtureText :=
  tokenize_deterministic ipadicConfig ipadicConfig fixtureText fixtureText rfl rfl

theorem dictCandidates_inv (s : Src) (es : List WordEntry) (rest : List Char) (c : Candidate)
    (h : c ∈ dictCandidates s es rest) :
    ∃ p, p ∈ withIdx 0 es ∧ (p.2.surface.isPrefixOf rest && !p.2.surface.isEmpty) = true ∧
      c = mkCand s p.1 p.2 := by
  obtain ⟨p, hp, hf⟩ := List.mem_filterMap.mp h
  by_cases hc : (p.2.surface.isPrefixOf rest && !p.2.surface.isEmpty) = true
  · rw [if_pos hc] at hf
    injection hf with h2
    exact ⟨p, hp, hc, h2.symm⟩
  · rw [if_neg hc] at hf
    exact Option.noConfusion hf

theorem dictCandidates_len_pos (s : Src) (es : List WordEntry) (rest : List Char)
    (c : Candidate) (h : c ∈ dictCandidates s es rest) : 1 ≤ c.len := by
  obtain ⟨p, _, hc, he⟩ := dictCandidates_inv s es rest c h
  have h2 : p.2.surface.isEmpty = false := by
    rcases Bool.and_eq_true_iff.mp hc with ⟨_, h3⟩
    rwa [Bool.not_eq_true'] at h3
  have h4 : p.2.surface ≠ [] := by
    intro h5
    rw [h5] at h2
    exact absurd h2 (by simp)
  rw [he]
  exact Nat.succ_le_of_lt (List.length_pos.mpr h4)

theorem dictCandidates_src (s : Src) (es : List WordEntry) (rest : List Char)
    (c : Candidate) (h : c ∈ dictCandidates s es rest) : c.src = s := by
  obtain ⟨p, _, _, he⟩ := dictCandidates_inv s es rest c h
  rw [he]
  rfl

theorem runLen_head (cfg : Config) (ch : Char) (rs : List Char) :
    1 ≤ runLen cfg (cfg.classifyChar ch) (ch :: rs) := by
  simp only [runLen]
  rw [if_pos (by simp)]
  omega

theorem unkLen_pos (cfg : Config) (ch : Char) (rs : List Char) : 1 ≤ unkLen cfg ch rs := by
  have hrun := runLen_head cfg ch rs
  unfold unkLen
  split_ifs with h1 h2
  · exact hrun
  · exact Nat.le_min.mpr ⟨Nat.one_le_iff_ne_zero.mpr h2, hrun⟩
  · exact le_refl 1

theorem candidatesAt_ne_nil (cfg : Config) (ch : Char) (rs : List Char) :
    candidatesAt cfg ch rs ≠ [] := by
  unfold candidatesAt
  split_ifs with h
  · simp
  · intro hnil
    apply h
    rw [hnil]
    simp

theorem candidatesAt_len_pos (cfg : Config) (ch : Char) (rs : List Char) (c : Candidate)
    (h : c ∈ candidatesAt cfg ch rs) : 1 ≤ c.len := by
  have hd : c ∈ dictAll cfg (ch :: rs) ∨ c = unknownCandidate cfg ch rs := by
    unfold candidatesAt at h
    split_ifs at h with h1
    · rcases List.mem_append.mp h with h2 | h2
      · exact Or.inl h2
      · exact Or.inr (List.mem_singleton.mp h2)
    · exact Or.inl h
  rcases hd with h2 | h2
  · rcases List.mem_append.mp h2 with h3 | h3
    · exact dictCandidates_len_pos _ _ _ _ h3
    · exact dictCandidates_len_pos _ _ _ _ h3
  · rw [h2]
    exact unkLen_pos cfg ch rs

theorem bestSeg_nil_total (cfg : Config) (hm : ∀ l r, (cfg.matrix l r).isSome = true)
    (fuel pr : Nat) : ∃ r, bestSeg cfg fuel pr [] = some r := by
  rw [bestSeg_nil]
  cases hmm : cfg.matrix pr 0 with
  | none =>
    have h2 := hm pr 0
    rw [hmm] at h2
    exact absurd h2 (by simp)
  | some cc => exact ⟨(cc, []), rfl⟩

theorem bestSeg_total (cfg : Config) (hm : ∀ l r, (cfg.matrix l r).isSome = true) :
    ∀ (fuel pr : Nat) (rest : List Char), rest.length ≤ fuel →
      ∃ r, bestSeg cfg fuel pr rest = some r := by
  intro fuel
  induction fuel with
  | zero =>
    intro pr rest hlen
    have h0 : rest = [] := List.length_eq_zero.mp (Nat.le_zero.mp hlen)
    subst h0
    exact bestSeg_nil_total cfg hm 0 pr
  | succ fuel ih =>
    intro pr rest hlen
    cases rest with
    | nil => exact bestSeg_nil_total cfg hm (fuel + 1) pr
    | cons ch rs =>
      rw [bestSeg_cons]
      obtain ⟨c, cs, hcand⟩ := List.exists_cons_of_ne_nil (candidatesAt_ne_nil cfg ch rs)
      have hcmem : c ∈ candidatesAt cfg ch rs := by
        rw [hcand]
        exact List.mem_cons_self c cs
      have hcpos := candidatesAt_len_pos cfg ch rs c hcmem
      have hdrop : ((ch :: rs).drop c.len).length ≤ fuel := by
        rw [List.length_drop]
        simp only [List.length_cons] at hlen ⊢
        omega
      obtain ⟨pr2, hpr2⟩ := ih c.rightId ((ch :: rs).drop c.len) hdrop
      have hmc := hm pr c.leftId
      obtain ⟨cc, hcc⟩ := Option.isSome_iff_exists.mp hmc
      have heval : evalCand cfg fuel pr (ch :: rs) c =
          some (cc + adjustedCost cfg.mode c + pr2.1, c :: pr2.2) := by
        unfold evalCand
        rw [hcc, hpr2]
      have hymem : (cc + adjustedCost cfg.mode c + pr2.1, c :: pr2.2) ∈
          (candidatesAt cfg ch rs).filterMap (evalCand cfg fuel pr (ch :: rs)) :=
        List.mem_filterMap.mpr ⟨c, hcmem, heval⟩
      cases hfm : (candidatesAt cfg ch rs).filterMap (evalCand cfg fuel pr (ch :: rs)) with
      | nil =>
        rw [hfm] at hymem
        exact absurd hymem (List.not_mem_nil _)
      | cons a t =>
        exact pickMin_cons_ne_none a t

/-- C4: on non-empty text composed entirely of characters of an unmapped
script (category 0, DEFAULT) — arbitrary emoji included — tokenize never
fails with SegmentationFailure and returns at least one token, given the
well-formedness invariant of §3 that every connection class pair has a
defined cost; the unknown-word fallback guarantees total lattice coverage. -/
theorem unknown_fallback_total (cfg : Config) (text : List Char)
    (hm : ∀ l r, (cfg.matrix l r).isSome = true)
    (_hscript : ∀ c ∈ text, cfg.classifyChar c = 0)
    (hne : text ≠ []) :
    ∃ toks, tokenize cfg text = some toks ∧ 1 ≤ toks.length := by
  obtain ⟨r, hr⟩ := bestSeg_total cfg hm text.length 0 text (le_refl _)
  refine ⟨buildTokens text 0 0 r.2, ?_, ?_⟩
  · unfold tokenize
    rw [hr]
    rfl
  · have hs := bestSeg_sumLens cfg text.length 0 text r hr
    have hpos : 0 < text.length := List.length_pos.mpr hne
    cases hp : r.2 with
    | nil =>
      rw [hp] at hs
      have h0 : sumLens ([] : List Candidate) = 0 := by simp [sumLens]
      omega
    | cons c p =>
      simp only [buildTokens, List.length_cons]
      omega

/-- Witness for C4: an emoji-only input tokenizes to a single grouped
unknown-word token under the minimal well-formed configuration. -/
theorem unknown_fallback_total_witness :
    ∃ toks, tokenize miniConfig ['😀', '😀'] = some toks ∧ 1 ≤ toks.length :=
  unknown_fallback_total miniConfig ['😀', '😀'] (fun _ _ => rfl)
    (fun _ _ => rfl) (by simp)

theorem withIdx_get_mem : ∀ (es : List WordEntry) (k j : Nat) (h : j < es.length),
    (k + j, es.get ⟨j, h⟩) ∈ withIdx k es := by
  intro es
  induction es with
  | nil => intro k j h; exact absurd h (by simp)
  | cons e es2 ih =>
    intro k j h
    cases j with
    | zero =>
      show (k + 0, (e :: es2).get ⟨0, h⟩) ∈ (k, e) :: withIdx (k + 1) es2
      have h1 : ((k + 0, (e :: es2).get ⟨0, h⟩) : Nat × WordEntry) = (k, e) :=
        Prod.ext (Nat.add_zero k) rfl
      rw [h1]
      exact List.mem_cons_self _ _
    | succ j2 =>
      have h2 : j2 < es2.length := Nat.lt_of_succ_lt_succ h
      show (k + (j2 + 1), (e :: es2).get ⟨j2 + 1, h⟩) ∈ (k, e) :: withIdx (k + 1) es2
      have h4 : ((k + (j2 + 1), (e :: es2).get ⟨j2 + 1, h⟩) : Nat × WordEntry) =
          (k + 1 + j2, es2.get ⟨j2, h2⟩) :=
        Prod.ext (by omega) rfl
      rw [h4]
      exact List.mem_cons_of_mem _ (ih (k + 1) j2 h2)

theorem withIdx_inv : ∀ (es : List WordEntry) (k : Nat) (p : Nat × WordEntry),
    p ∈ withIdx k es → ∃ j, ∃ h : j < es.length, p = (k + j, es.get ⟨j, h⟩) := by
  intro es
  induction es with
  | nil => intro k p hp; exact absurd hp (List.not_mem_nil p)
  | cons e es2 ih =>
    intro k p hp
    rcases List.mem_cons.mp hp with h1 | h1
    · refine ⟨0, by simp, ?_⟩
      rw [h1]
      exact Prod.ext (Nat.add_zero k).symm rfl
    · obtain ⟨j, hj, hpe⟩ := ih (k + 1) p h1
      refine ⟨j + 1, Nat.succ_lt_succ hj, ?_⟩
      rw [hpe]
      exact Prod.ext (by omega) rfl

theorem dictCandidates_of_entry (s : Src) (es : List WordEntry) (rest : List Char) (j : Nat)
    (hj : j < es.length)
    (hcond : ((es.get ⟨j, hj⟩).surface.isPrefixOf rest &&
      !(es.get ⟨j, hj⟩).surface.isEmpty) = true) :
    mkCand s j (es.get ⟨j, hj⟩) ∈ dictCandidates s es rest := by
  have hmem := withIdx_get_mem es 0 j hj
  rw [Nat.zero_add] at hmem
  exact List.mem_filterMap.mpr ⟨(j, es.get ⟨j, hj⟩), hmem, by rw [if_pos hcond]⟩

theorem dictCandidates_wordId (s : Src) (es : List WordEntry) (rest : List Char) (c : Candidate)
    (h : c ∈ dictCandidates s es rest) :
    ∃ hj : c.wordId < es.length,
      c = mkCand s c.wordId (es.get ⟨c.wordId, hj⟩) ∧
      ((es.get ⟨c.wordId, hj⟩).surface.isPrefixOf rest &&
        !(es.get ⟨c.wordId, hj⟩).surface.isEmpty) = true := by
  obtain ⟨p, hp, hcond, hc⟩ := dictCandidates_inv s es rest c h
  obtain ⟨j2, hj2, hpe⟩ := withIdx_inv es 0 p hp
  subst hpe
  have hcw : c.wordId = j2 := by
    rw [hc]
    exact Nat.zero_add j2
  subst hcw
  refine ⟨hj2, ?_, hcond⟩
  conv_lhs => rw [hc]
  simp

theorem candidatesAt_split_cases (cfg : Config) (ch : Char) (rs : List Char) (c : Candidate)
    (h : c ∈ candidatesAt cfg ch rs) :
    c ∈ dictAll cfg (ch :: rs) ∨ c = unknownCandidate cfg ch rs := by
  unfold candidatesAt at h
  split_ifs at h with h1
  · rcases List.mem_append.mp h with h2 | h2
    · exact Or.inl h2
    · exact Or.inr (List.mem_singleton.mp h2)
  · exact Or.inl h

theorem candidatesAt_src_system (cfg : Config) (ch : Char) (rs : List Char) (c : Candidate)
    (h : c ∈ candidatesAt cfg ch rs) (hsrc : c.src = Src.system) :
    c ∈ dictCandidates Src.system cfg.system (ch :: rs) := by
  rcases candidatesAt_split_cases cfg ch rs c h with h2 | h2
  · rcases List.mem_append.mp h2 with h3 | h3
    · have h4 := dictCandidates_src Src.user cfg.user (ch :: rs) c h3
      rw [hsrc] at h4
      exact Src.noConfusion h4
    · exact h3
  · rw [h2] at hsrc
    exact Src.noConfusion hsrc

theorem dictAll_sub_candidatesAt (cfg : Config) (ch : Char) (rs : List Char) (c : Candidate)
    (h : c ∈ dictAll cfg (ch :: rs)) : c ∈ candidatesAt cfg ch rs := by
  unfold candidatesAt
  split_ifs with h1
  · exact List.mem_append_left _ h
  · exact h

theorem candidatesAt_user_head (cfg : Config) (ch : Char) (rs : List Char) :
    ∃ T, candidatesAt cfg ch rs = dictCandidates Src.user cfg.user (ch :: rs) ++ T := by
  unfold candidatesAt dictAll
  split_ifs with h1
  · exact ⟨dictCandidates Src.system cfg.system (ch :: rs) ++ [unknownCandidate cfg ch rs],
      by rw [List.append_assoc]⟩
  · exact ⟨dictCandidates Src.system cfg.system (ch :: rs), rfl⟩

theorem adjustedCost_mono (m : Mode) (c₁ c₂ : Candidate) (hlen : c₁.len = c₂.len)
    (hw : c₁.wcost ≤ c₂.wcost) : adjustedCost m c₁ ≤ adjustedCost m c₂ := by
  cases m with
  | normal => exact hw
  | search t p =>
    simp only [adjustedCost, hlen]
    split_ifs <;> omega
  | decompose t p =>
    simp only [adjustedCost, hlen]
    split_ifs <;> omega

theorem mem_left_of_split {γ : Type} :
    ∀ (A l₁ l₂ B : List γ) (x y : γ), A ++ B = l₁ ++ x :: l₂ → x ∉ A → y ∈ A → y ∈ l₁ := by
  intro A
  induction A with
  | nil => intro l₁ l₂ B x y h hx hy; exact absurd hy (List.not_mem_nil y)
  | cons a A2 ih =>
    intro l₁ l₂ B x y h hx hy
    cases l₁ with
    | nil =>
      simp only [List.cons_append, List.nil_append] at h
      injection h with h1 h2
      exact absurd (h1 ▸ List.mem_cons_self a A2) hx
    | cons b l₁2 =>
      simp only [List.cons_append] at h
      injection h with h1 h2
      rcases List.mem_cons.mp hy with h3 | h3
      · subst h3
        rw [h1]
        exact List.mem_cons_self b l₁2
      · have hx2 : x ∉ A2 := fun h4 => hx (List.mem_cons_of_mem a h4)
        exact List.mem_cons_of_mem b (ih l₁2 l₂ B x y h2 hx2 h3)

theorem buildTokens_src :
    ∀ (p : List Candidate) (rest : List Char) (b pos : Nat) (t : Token),
      t ∈ buildTokens rest b pos p → ∃ c ∈ p, t.src = c.src ∧ t.word_id = c.wordId := by
  intro p
  induction p with
  | nil => intro rest b pos t ht; exact absurd ht (List.not_mem_nil t)
  | cons c p ih =>
    intro rest b pos t ht
    simp only [buildTokens] at ht
    rcases List.mem_cons.mp ht with h1 | h1
    · exact ⟨c, List.mem_cons_self c p, by rw [h1], by rw [h1]⟩
    · obtain ⟨c2, hc2, hf⟩ := ih _ _ _ _ h1
      exact ⟨c2, List.mem_cons_of_mem c hc2, hf⟩

theorem bestSeg_no_dominated (cfg : Config) (iu j : Nat)
    (hu : iu < cfg.user.length) (hsy : j < cfg.system.length)
    (hsurf : (cfg.user.get ⟨iu, hu⟩).surface = (cfg.system.get ⟨j, hsy⟩).surface)
    (hleft : (cfg.user.get ⟨iu, hu⟩).leftId = (cfg.system.get ⟨j, hsy⟩).leftId)
    (hright : (cfg.user.get ⟨iu, hu⟩).rightId = (cfg.system.get ⟨j, hsy⟩).rightId)
    (hcost : (cfg.user.get ⟨iu, hu⟩).wcost ≤ (cfg.system.get ⟨j, hsy⟩).wcost) :
    ∀ (fuel pr : Nat) (rest : List Char) (r : Int × List Candidate),
      bestSeg cfg fuel pr rest = some r →
      ∀ c ∈ r.2, ¬(c.src = Src.system ∧ c.wordId = j) := by
  intro fuel
  induction fuel with
  | zero =>
    intro pr rest r h c hc
    cases rest with
    | nil =>
      rw [bestSeg_nil_inv cfg 0 pr r h] at hc
      exact absurd hc (List.not_mem_nil c)
    | cons ch rs => exact Option.noConfusion h
  | succ fuel ih =>
    intro pr rest r h c hc
    cases rest with
    | nil =>
      rw [bestSeg_nil_inv cfg (fuel + 1) pr r h] at hc
      exact absurd hc (List.not_mem_nil c)
    | cons ch rs =>
      rw [bestSeg_cons] at h
      obtain ⟨cand, hcm, hev⟩ := List.mem_filterMap.mp (pickMin_mem _ r h)
      obtain ⟨cc, pr2, hmx, hbs, hr⟩ := evalCand_eq_some cfg fuel pr (ch :: rs) cand r hev
      have hc2 : c ∈ cand :: pr2.2 := by rw [hr] at hc; exact hc
      rcases List.mem_cons.mp hc2 with hceq | hcm2
      · rw [hceq]
        rintro ⟨hsrc, hwid⟩
        subst hwid
        have hsys : cand ∈ dictCandidates Src.system cfg.system (ch :: rs) :=
          candidatesAt_src_system cfg ch rs cand hcm hsrc
        obtain ⟨hj, hceq2, hcond⟩ :=
          dictCandidates_wordId Src.system cfg.system (ch :: rs) cand hsys
        have hget : cfg.system.get ⟨cand.wordId, hj⟩ = cfg.system.get ⟨cand.wordId, hsy⟩ := rfl
        rw [hget] at hceq2 hcond
        have hcondU : ((cfg.user.get ⟨iu, hu⟩).surface.isPrefixOf (ch :: rs) &&
            !(cfg.user.get ⟨iu, hu⟩).surface.isEmpty) = true := by
          rw [hsurf]
          exact hcond
        have hcuMem : mkCand Src.user iu (cfg.user.get ⟨iu, hu⟩) ∈
            dictCandidates Src.user cfg.user (ch :: rs) :=
          dictCandidates_of_entry Src.user cfg.user (ch :: rs) iu hu hcondU
        have hculeft : (mkCand Src.user iu (cfg.user.get ⟨iu, hu⟩)).leftId = cand.leftId := by
          rw [hceq2]
          exact hleft
        have hcuright : (mkCand Src.user iu (cfg.user.get ⟨iu, hu⟩)).rightId = cand.rightId := by
          rw [hceq2]
          exact hright
        have hculen : (mkCand Src.user iu (cfg.user.get ⟨iu, hu⟩)).len = cand.len := by
          rw [hceq2]
          exact congrArg List.length hsurf
        have hcuw : (mkCand Src.user iu (cfg.user.get ⟨iu, hu⟩)).wcost ≤ cand.wcost := by
          rw [hceq2]
          exact hcost
        have hevalU : evalCand cfg fuel pr (ch :: rs) (mkCand Src.user iu (cfg.user.get ⟨iu, hu⟩)) =
            some (cc + adjustedCost cfg.mode (mkCand Src.user iu (cfg.user.get ⟨iu, hu⟩)) + pr2.1,
              mkCand Src.user iu (cfg.user.get ⟨iu, hu⟩) :: pr2.2) := by
          unfold evalCand
          rw [hculeft, hcuright, hculen, hmx, hbs]
        have hr1 : r.1 = cc + adjustedCost cfg.mode cand + pr2.1 := by rw [hr]
        obtain ⟨l₁, l₂, hsplit, hlt⟩ := pickMin_first _ r h
        obtain ⟨T, hT⟩ := candidatesAt_user_head cfg ch rs
        have hLsplit : (candidatesAt cfg ch rs).filterMap (evalCand cfg fuel pr (ch :: rs)) =
            (dictCandidates Src.user cfg.user (ch :: rs)).filterMap
                (evalCand cfg fuel pr (ch :: rs)) ++
              T.filterMap (evalCand cfg fuel pr (ch :: rs)) := by
          rw [hT, List.filterMap_append]
        have hsplit2 : (dictCandidates Src.user cfg.user (ch :: rs)).filterMap
              (evalCand cfg fuel pr (ch :: rs)) ++
            T.filterMap (evalCand cfg fuel pr (ch :: rs)) = l₁ ++ r :: l₂ := by
          rw [← hLsplit]
          exact hsplit
        have hnotin : r ∉ (dictCandidates Src.user cfg.user (ch :: rs)).filterMap
            (evalCand cfg fuel pr (ch :: rs)) := by
          intro hrA
          obtain ⟨cu2, hcu2mem, hcu2⟩ := List.mem_filterMap.mp hrA
          obtain ⟨cc2, pr22, hmx2, hbs2, hr2⟩ :=
            evalCand_eq_some cfg fuel pr (ch :: rs) cu2 r hcu2
          have hheads : cand = cu2 := by
            rw [hr] at hr2
            injection hr2 with h1 h2
            injection h2 with h3 h4
          have hsrc2 := dictCandidates_src Src.user cfg.user (ch :: rs) cu2 hcu2mem
          rw [← hheads, hsrc] at hsrc2
          exact Src.noConfusion hsrc2
        have hyA : (cc + adjustedCost cfg.mode (mkCand Src.user iu (cfg.user.get ⟨iu, hu⟩)) + pr2.1,
              mkCand Src.user iu (cfg.user.get ⟨iu, hu⟩) :: pr2.2) ∈
            (dictCandidates Src.user cfg.user (ch :: rs)).filterMap
              (evalCand cfg fuel pr (ch :: rs)) :=
          List.mem_filterMap.mpr ⟨_, hcuMem, hevalU⟩
        have hyIn := mem_left_of_split _ l₁ l₂ _ r _ hsplit2 hnotin hyA
        have hcontr := hlt _ hyIn
        have hy1 : ((cc + adjustedCost cfg.mode (mkCand Src.user iu (cfg.user.get ⟨iu, hu⟩)) + pr2.1,
            mkCand Src.user iu (cfg.user.get ⟨iu, hu⟩) :: pr2.2) : Int × List Candidate).1 =
            cc + adjustedCost cfg.mode (mkCand Src.user iu (cfg.user.get ⟨iu, hu⟩)) + pr2.1 := rfl
        rw [hy1] at hcontr
        have hmono := adjustedCost_mono cfg.mode
          (mkCand Src.user iu (cfg.user.get ⟨iu, hu⟩)) cand hculen hcuw
        omega
      · exact ih cand.rightId ((ch :: rs).drop cand.len) pr2 hbs c hcm2

/-- C5 (amended): when a surface exists in both the system and the user
dictionary at the same byte offset, with the same left and right connection
classes and a user-dictionary cost at most the system cost, the token
sequence emitted by tokenize never uses that system entry — the winning path
takes the user entry, observable via the token's word_id and source. -/
theorem user_dict_precedence (cfg : Config) (iu j : Nat)
    (hu : iu < cfg.user.length) (hsy : j < cfg.system.length)
    (hsurf : (cfg.user.get ⟨iu, hu⟩).surface = (cfg.system.get ⟨j, hsy⟩).surface)
    (hleft : (cfg.user.get ⟨iu, hu⟩).leftId = (cfg.system.get ⟨j, hsy⟩).leftId)
    (hright : (cfg.user.get ⟨iu, hu⟩).rightId = (cfg.system.get ⟨j, hsy⟩).rightId)
    (hcost : (cfg.user.get ⟨iu, hu⟩).wcost ≤ (cfg.system.get ⟨j, hsy⟩).wcost)
    (text : List Char) (toks : List Token) (htok : tokenize cfg text = some toks)
    (t : Token) (hmem : t ∈ toks) : ¬(t.src = Src.system ∧ t.word_id = j) := by
  unfold tokenize at htok
  cases hb : bestSeg cfg text.length 0 text with
  | none => rw [hb] at htok; exact Option.noConfusion htok
  | some r =>
    rw [hb] at htok
    injection htok with h2
    subst h2
    obtain ⟨c, hcp, hsrc, hwid⟩ := buildTokens_src r.2 text 0 0 t hmem
    rintro ⟨ht1, ht2⟩
    exact bestSeg_no_dominated cfg iu j hu hsy hsurf hleft hright hcost
      text.length 0 text r hb c hcp ⟨by rw [← hsrc]; exact ht1, by rw [← hwid]; exact ht2⟩

/-- Witness for the amended C5: with identical connection classes and a
cheaper user entry for あ, the emitted token is not the system entry. -/
theorem user_dict_precedence_witness :
    ¬((⟨['あ'], 0, 3, 0, 0, Src.user, ["USR"]⟩ : Token).src = Src.system ∧
      (⟨['あ'], 0, 3, 0, 0, Src.user, ["USR"]⟩ : Token).word_id = 0) :=
  user_dict_precedence overlayGoodConfig 0 0 (by decide) (by decide) (by decide) (by decide)
    (by decide) (by decide) ['あ'] [⟨['あ'], 0, 3, 0, 0, Src.user, ["USR"]⟩] (by decide)
    ⟨['あ'], 0, 3, 0, 0, Src.user, ["USR"]⟩ (by decide)

/-- C5 counterexample: as stated the claim is false — in `overlayConfig` the
surface あ exists in both dictionaries at the same offset with a strictly
lower user-dictionary cost, yet the emitted token comes from the system
entry, because the user entry's different connection classes make its path
more expensive under the connection matrix. -/
theorem user_precedence_counterexample :
    (overlayConfig.user.getD 0 ⟨[], 0, 0, 0, []⟩).surface =
        (overlayConfig.system.getD 0 ⟨[], 0, 0, 0, []⟩).surface ∧
      (overlayConfig.user.getD 0 ⟨[], 0, 0, 0, []⟩).wcost <
        (overlayConfig.system.getD 0 ⟨[], 0, 0, 0, []⟩).wcost ∧
      (tokenize overlayConfig ['あ']).map (fun ts => ts.map (fun t => (t.src, t.word_id))) =
        some [(Src.system, 0)] := by
  decide

/-- C6: export is idempotent and a pure function of the trained model — two
export calls on the same TrainedModel produce byte-identical lexicon,
connection matrix, unknown-word and character definition files; the exporter
takes no clock or environment input, so no timestamps are emitted. -/
theorem export_idempotent (m₁ m₂ : TrainedModel) (h : m₁ = m₂) :
    exportModel m₁ = exportModel m₂ := by
  subst h
  rfl

/-- Witness for C6: double export of a concrete model produces identical
files. -/
theorem export_idempotent_witness :
    exportModel ⟨ipadicEntries, [(0, 1, 0)], [("DEFAULT", ⟨[], 3, 3, 20000, ["名詞"]⟩)],
        [("DEFAULT", ⟨false, true, 0⟩)]⟩ =
      exportModel ⟨ipadicEntries, [(0, 1, 0)], [("DEFAULT", ⟨[], 3, 3, 20000, ["名詞"]⟩)],
        [("DEFAULT", ⟨false, true, 0⟩)]⟩ :=
  export_idempotent _ _ rfl

/-- C7: training is reproducible when single-threaded — running the training
pipeline twice on the same corpus (instances processed sequentially in corpus
order, the max_threads = 1 semantics) with the same update rule, convergence
predicate, model derivation, pass budget and seed weights yields identical
exported lexicon and matrix files. -/
theorem train_reproducible {α : Type} (update : α → TrainingInstance → α)
    (convergedB : α → α → Bool) (derive : α → TrainedModel) (maxIter : Nat)
    (corpus₁ corpus₂ : List TrainingInstance) (w : α) (h : corpus₁ = corpus₂) :
    trainAndExport update convergedB derive maxIter corpus₁ w =
      trainAndExport update convergedB derive maxIter corpus₂ w := by
  subst h
  rfl

/-- Witness for C7: two single-threaded training runs on the same one-sentence
corpus export identical files. -/
theorem train_reproducible_witness :
    trainAndExport (fun (w : Int) _ => w + 1) (fun a b => a == b)
        (fun w => ⟨[⟨['あ'], 0, 0, w, ["名詞"]⟩], [], [], []⟩) 3 [[(['あ'], ["名詞"])]] 0 =
      trainAndExport (fun (w : Int) _ => w + 1) (fun a b => a == b)
        (fun w => ⟨[⟨['あ'], 0, 0, w, ["名詞"]⟩], [], [], []⟩) 3 [[(['あ'], ["名詞"])]] 0 :=
  train_reproducible _ _ _ 3 _ _ 0 rfl

/-- C8: the trainer's iteration loop terminates — it performs at most maxIter
passes over the corpus, stops after the first pass as soon as the total
weight change satisfies the convergence predicate, and always returns a model
(non-convergence at the budget is not an error: the 0-pass bound is the `≤`
and the loop is a total function). -/
theorem trainLoop_terminates {α : Type} (update : α → TrainingInstance → α)
    (convergedB : α → α → Bool) (maxIter : Nat) (corpus : List TrainingInstance) (w : α) :
    (trainLoop update convergedB maxIter corpus w).2 ≤ maxIter ∧
      (0 < maxIter → convergedB w (trainPass update corpus w) = true →
        trainLoop update convergedB maxIter corpus w = (trainPass update corpus w, 1)) := by
  induction maxIter generalizing w with
  | zero => exact ⟨le_refl 0, fun h => absurd h (by omega)⟩
  | succ n ih =>
    constructor
    · simp only [trainLoop]
      split_ifs with h
      · show (1 : Nat) ≤ n + 1
        omega
      · have h2 := (ih (trainPass update corpus w)).1
        show (trainLoop update convergedB n corpus (trainPass update corpus w)).2 + 1 ≤ n + 1
        omega
    · intro hpos hconv
      simp only [trainLoop]
      rw [if_pos hconv]

/-- Witness for C8: with an identity update the first pass converges and the
loop stops after exactly one of its five allotted passes. -/
theorem trainLoop_terminates_witness :
    (trainLoop (fun (w : Int) _ => w) (fun a b => a == b) 5 [[]] 0).2 ≤ 5 ∧
      trainLoop (fun (w : Int) _ => w) (fun a b => a == b) 5 [[]] 0 =
        (trainPass (fun (w : Int) _ => w) [[]] 0, 1) :=
  ⟨(trainLoop_terminates (fun (w : Int) _ => w) (fun a b => a == b) 5 [[]] 0).1,
    (trainLoop_terminates (fun (w : Int) _ => w) (fun a b => a == b) 5 [[]] 0).2
      (by omega) (by decide)⟩

/-- C9: Token.get_detail returns the same string as details[i] for every
index within bounds, and none (rather than raising) when the index is out of
bounds. -/
theorem get_detail_spec (t : Token) (i : Nat) :
    (∀ h : i < t.details.length, t.get_detail i = some (t.details.get ⟨i, h⟩)) ∧
      (t.details.length ≤ i → t.get_detail i = none) := by
  constructor
  · intro h
    simp [Token.get_detail, List.get?_eq_get h]
  · intro h
    show t.details.get? i = none
    exact List.get?_eq_none.mpr h

/-- Witness for C9: a concrete token yields its first detail at index 0 and
none at the out-of-bounds index 9999. -/
theorem get_detail_spec_witness :
    (⟨['あ'], 0, 3, 0, 0, Src.user, ["名詞", "一般"]⟩ : Token).get_detail 0 = some "名詞" ∧
      (⟨['あ'], 0, 3, 0, 0, Src.user, ["名詞", "一般"]⟩ : Token).get_detail 9999 = none :=
  ⟨(get_detail_spec ⟨['あ'], 0, 3, 0, 0, Src.user, ["名詞", "一般"]⟩ 0).1 (by decide),
    (get_detail_spec ⟨['あ'], 0, 3, 0, 0, Src.user, ["名詞", "一般"]⟩ 9999).2 (by decide)⟩

end Lindera
